import Mathlib

/-!
Verification of the frame/channel mapping pipeline of the io_anim_c3d
Blender add-on (c3d_importer.py, c3d_exporter.py, __init__.py).

Python floats are modelled as rationals (ℚ); the arithmetic performed by the
claims under scrutiny (comparisons, matrix application with identity matrices,
copying of values) is exact, so ℚ is a faithful carrier.  Label strings are
modelled as lists of characters.  NumPy arrays indexed by consecutive frame
numbers are modelled as positional lists: `read_frames` yields the frames of a
recording consecutively from `first_frame` to `last_frame`, so the block with
frame index `first_frame + k` sits at list position `k` and the scatter
`index = i - first_frame` performed by `read_data` is positional access.
-/

/-- One raw POINT sample of a frame: the 4-tuple (x, y, z, residual). -/
structure Sample where
  x : ℚ
  y : ℚ
  z : ℚ
  residual : ℚ
deriving DecidableEq

/-- One frame block: the samples of all labels, in storage order. -/
abbrev Frame := List Sample

/-- A 3-vector of rationals. -/
structure Vec3 where
  x : ℚ
  y : ℚ
  z : ℚ
deriving DecidableEq

/-- Dot product of two 3-vectors. -/
def Vec3.dot (a b : Vec3) : ℚ := a.x * b.x + a.y * b.y + a.z * b.z

/-- A 3x3 matrix given by its rows (`global_orient` in the importer). -/
structure Mat3 where
  r0 : Vec3
  r1 : Vec3
  r2 : Vec3
deriving DecidableEq

/-- Matrix-vector product, as `np.matmul(global_orient, point_frames)` applies
`global_orient` to each position column. -/
def Mat3.mulVec (m : Mat3) (v : Vec3) : Vec3 :=
  ⟨m.r0.dot v, m.r1.dot v, m.r2.dot v⟩

/-- The identity matrix (identity orientation and scale). -/
def idMat : Mat3 := ⟨⟨1, 0, 0⟩, ⟨0, 1, 0⟩, ⟨0, 0, 1⟩⟩

/-- Component `d` of a vector, mirroring numpy indexing `[d]` for d = 0, 1, 2. -/
def Vec3.comp (v : Vec3) (d : ℕ) : ℚ :=
  match d with
  | 0 => v.x
  | 1 => v.y
  | 2 => v.z
  | _ => 0

/-- Sample of label `j` in frame block `k` (positional access into the cached
frame list, out-of-range access giving a zero sample). -/
def sampleAt (frames : List Frame) (k j : ℕ) : Sample :=
  (frames.getD k []).getD j ⟨0, 0, 0, 0⟩

/-- Position part of the sample of label `j` in frame `k`. -/
def posAt (frames : List Frame) (k j : ℕ) : Vec3 :=
  ⟨(sampleAt frames k j).x, (sampleAt frames k j).y, (sampleAt frames k j).z⟩

/-- Residual of the sample of label `j` in frame `k`. -/
def residAt (frames : List Frame) (k j : ℕ) : ℚ :=
  (sampleAt frames k j).residual

/-- Absolute value of a rational, written out so that kernel evaluation of
decidable goals reduces. -/
def ratAbs (q : ℚ) : ℚ := if q < 0 then -q else q

/-- Validity flag derived in `read_data`:
`valid = points[:, 3] >= 0.0` and, when `max_residual > 0.0`,
`valid = np.logical_and(points[:, 3] < max_residual, valid)`. -/
def validSample (maxResidual r : ℚ) : Bool :=
  if 0 < maxResidual then decide (r < maxResidual) && decide (0 ≤ r)
  else decide (0 ≤ r)

/-- The per-(frame, label) validity flag of `read_data` (`valid_samples`). -/
def validAt (maxResidual : ℚ) (frames : List Frame) (k j : ℕ) : Bool :=
  validSample maxResidual (residAt frames k j)

/-!  Actor/label partitioning (`get_actors`, `get_actor_masks`). -/

/-- Python strings are modelled as lists of characters. -/
abbrev PyStr := List Char

/-- The sentinel default entity name `"UNLABELED"`. -/
def unlabeledStr : PyStr := ['U', 'N', 'L', 'A', 'B', 'E', 'L', 'E', 'D']

/-- Python `":" in item`. -/
def containsColon (s : PyStr) : Bool := decide (':' ∈ s)

/-- Python `item.split(":", 1)[0]`: the part before the first colon. -/
def splitActor (s : PyStr) : PyStr := s.takeWhile (fun c => decide (¬ c = ':'))

/-- Actor assigned to a label by `get_actors`:
`actor, _ = item.split(":", 1) if ":" in item else ("UNLABELED", item)`. -/
def actorOf (s : PyStr) : PyStr :=
  if containsColon s then splitActor s else unlabeledStr

/-- First-occurrence deduplication; models collecting distinct elements
(a Python `set` / `dict.fromkeys`), keeping first-seen order to stay
deterministic. -/
def dedupFirst {α : Type _} [DecidableEq α] : List α → List α
  | [] => []
  | x :: xs => x :: (dedupFirst xs).filter (fun y => decide (¬ y = x))

/-- `get_actors(labels)`: the set of distinct actor names of a label list,
modelled as a deduplicated list. -/
def getActors (labels : List PyStr) : List PyStr :=
  dedupFirst (labels.map actorOf)

/-- One entry of the point mask built by `get_actor_masks`:
for `"UNLABELED"` the mask is `":" not in label`, otherwise
`label.startswith(actor + ":")`. -/
def maskElem (actor : PyStr) (label : PyStr) : Bool :=
  if actor = unlabeledStr then ! containsColon label
  else (actor ++ [':']).isPrefixOf label

/-- The point mask `get_actor_masks` produces for one actor. -/
def actorMask (actor : PyStr) (labels : List PyStr) : List Bool :=
  labels.map (maskElem actor)

/-!  Event translation (`read_events`).  The whole `for` loop over
`parser.events()` sits inside one `try`: a `ValueError`/`TypeError` raised by
a malformed event is reported once and ends the loop, so the remaining events
are not processed, while markers already created persist. -/

/-- One entry of `parser.events()`: either a well-formed `(frame, label)` pair
or a malformed entry that raises `ValueError`/`TypeError` when unpacked or
converted. -/
inductive EventItem (L : Type _) where
  | ok (frame : ℚ) (label : L)
  | malformed
deriving DecidableEq

/-- Whether an event entry is well-formed. -/
def EventItem.isOk {L : Type _} : EventItem L → Bool
  | .ok _ _ => true
  | .malformed => false

/-- Frame of a well-formed event (0 for a malformed one). -/
def EventItem.frameOf {L : Type _} : EventItem L → ℚ
  | .ok f _ => f
  | .malformed => 0

/-- Label of a well-formed event. -/
def EventItem.labelOf {L : Type _} [Inhabited L] : EventItem L → L
  | .ok _ l => l
  | .malformed => default

/-- `int(np.round(x))`: NumPy rounds half to even, `int` of the resulting
integral float is exact. -/
def roundHalfEven (q : ℚ) : ℤ :=
  if q - ⌊q⌋ < 1/2 then ⌊q⌋
  else if 1/2 < q - ⌊q⌋ then ⌊q⌋ + 1
  else if ⌊q⌋ % 2 = 0 then ⌊q⌋ else ⌊q⌋ + 1

/-- `read_events`: markers produced (in creation order) and whether the
exception handler reported a warning.  Processing stops at the first
malformed event because the `try` encloses the whole loop. -/
def readEventsGo {L : Type _} (conv : ℚ) : List (EventItem L) → List (ℤ × L) × Bool
  | [] => ([], false)
  | .malformed :: _ => ([], true)
  | .ok f l :: rest =>
      let p := readEventsGo conv rest
      ((roundHalfEven (f * conv), l) :: p.1, p.2)

/-!  Batch import (`ImportC3D.execute`): per-file isolation. -/

/-- Outcome of `c3d_importer.load` on one file: finished, cancelled (load
returned `{'CANCELLED'}`), or an exception was raised. -/
inductive FileRes where
  | finished
  | cancelled
  | errored
deriving DecidableEq

/-- Severity of the report issued after the batch loop. -/
inductive Sev where
  | warning
  | error
deriving DecidableEq

/-- Result of `ImportC3D.execute` on a batch. -/
structure BatchOut (P : Type _) where
  attempted : List P
  failed : List P
  report : Option (Sev × List P)
  retFinished : Bool
deriving DecidableEq

/-- The `for file in self.files` loop: every file is attempted (the `try`
sits inside the loop body); files whose load did not finish are appended to
`failed`. -/
def batchLoop {P : Type _} : List (P × FileRes) → List P × List P
  | [] => ([], [])
  | (p, r) :: rest =>
      let t := batchLoop rest
      (p :: t.1, if r = .finished then t.2 else p :: t.2)

/-- `ImportC3D.execute` on a non-empty `self.files` batch: run the loop, then
report an `ERROR` (and return `CANCELLED`) when every file failed, a
`WARNING` when only some failed, nothing when none failed. -/
def executeBatch {P : Type _} (files : List (P × FileRes)) : BatchOut P :=
  if (batchLoop files).2.isEmpty then ⟨(batchLoop files).1, (batchLoop files).2, none, true⟩
  else if (batchLoop files).2.length = files.length then
    ⟨(batchLoop files).1, (batchLoop files).2, some (.error, (batchLoop files).2), false⟩
  else ⟨(batchLoop files).1, (batchLoop files).2, some (.warning, (batchLoop files).2), true⟩

/-- The files of a batch whose load did not finish, in processing order. -/
def failedOf {P : Type _} (files : List (P × FileRes)) : List P :=
  (files.filter (fun f => decide (¬ f.2 = FileRes.finished))).map Prod.fst

/-!  Import channel mapper (`read_data`) and the per-entity curve list. -/

variable {L : Type _} [DecidableEq L]

/-- Keyframe interpolation modes offered by the importer. -/
inductive Interp where
  | CONSTANT
  | LINEAR
  | BEZIER
  | QUAD
  | CUBIC
  | CIRC
deriving DecidableEq

/-- One keyframe point `(co[0], co[1])` together with its interpolation mode. -/
structure KP where
  time : ℚ
  value : ℚ
  interp : Interp
deriving DecidableEq

/-- Shape of an F-Curve data path created by the importer:
`'pose.bones["%s"].location'` or `'pose.bones["%s"]["residual"]'`.  The
exporter recognises position curves by `data_path.endswith('.location')` and
recovers the bone name by `data_path.split('"')[1]`; both operations are
modelled structurally on this shape. -/
inductive PathKind where
  | location
  | residualProp
deriving DecidableEq

/-- An F-Curve: bone label, data-path shape, array index, keyframe points and
the `lock` flag. -/
structure FCurveM (L : Type _) where
  bone : L
  kind : PathKind
  arrayIndex : ℕ
  keyframes : List KP
  lock : Bool
deriving DecidableEq

/-- Frame offsets (relative to `first_frame`) at which label `j` is valid:
`frame_range[valid_samples[:, label_ind]]` with `frame_range =
np.arange(0, nframes)`. -/
def validIdx (maxResidual : ℚ) (frames : List Frame) (j : ℕ) : List ℕ :=
  (List.range frames.length).filter (fun k => validAt maxResidual frames k j)

/-- Keyframes of the location F-Curve of label `j`, dimension `d`:
one keyframe per valid frame offset `k`, at time `k * conv_fac_frame_rate`,
holding component `d` of the re-oriented position
`np.matmul(global_orient, point_frames)`.  Keyframes are inserted with the
default BEZIER interpolation and rewritten to the configured mode when it is
not BEZIER, so every keyframe carries the configured mode. -/
def locKeyframes (maxResidual conv : ℚ) (orient : Mat3) (frames : List Frame)
    (interp : Interp) (j d : ℕ) : List KP :=
  (validIdx maxResidual frames j).map
    (fun (k : ℕ) => ⟨(k : ℚ) * conv, (orient.mulVec (posAt frames k j)).comp d, interp⟩)

/-- The run-length state test of `read_data`:
`previous_value is None or value != previous_value`. -/
def rleNew (prev : Option ℚ) (v : ℚ) : Bool :=
  match prev with
  | none => true
  | some p => decide (¬ v = p)

/-- The run-length compression loop of `read_data` over `(time, value)` pairs:
a pair is appended exactly when `previous_value is None or value !=
previous_value`, and `previous_value` is updated on append. -/
def rleGo (prev : Option ℚ) : List (ℚ × ℚ) → List (ℚ × ℚ)
  | [] => []
  | tv :: rest =>
      if rleNew prev tv.2 then tv :: rleGo (some tv.2) rest
      else rleGo prev rest

/-- Keyframes of the residual F-Curve of label `j`: run-length compressed over
`zip(frame_indices, residual[:, i])` with `frame_indices =
np.arange(first_frame, first_frame + nframes) * conv_fac_frame_rate`; every
keyframe is set to CONSTANT interpolation. -/
def residKeyframes (conv : ℚ) (firstFrame : ℤ) (frames : List Frame) (j : ℕ) :
    List KP :=
  (rleGo none ((List.range frames.length).map
      (fun (k : ℕ) => (((firstFrame : ℚ) + (k : ℚ)) * conv, residAt frames k j)))).map
    (fun tv => ⟨tv.1, tv.2, .CONSTANT⟩)

/-- The location F-Curve for label position `j` (bone `l`), dimension `d`. -/
def mkLocCurve (maxResidual conv : ℚ) (orient : Mat3) (interp : Interp)
    (frames : List Frame) (j : ℕ) (l : L) (d : ℕ) : FCurveM L :=
  ⟨l, .location, d, locKeyframes maxResidual conv orient frames interp j d, false⟩

/-- All F-Curves one armature's action holds after `read_data`: three location
curves per label (in label order, dimensions 0,1,2), then one locked residual
curve per label. -/
def importFCurves (maxResidual conv : ℚ) (orient : Mat3) (interp : Interp)
    (firstFrame : ℤ) (frames : List Frame) (labels : List L) : List (FCurveM L) :=
  (labels.enum.flatMap (fun jl =>
      (List.range 3).map (mkLocCurve maxResidual conv orient interp frames jl.1 jl.2)))
    ++ labels.enum.map (fun jl =>
      ⟨jl.2, .residualProp, 0, residKeyframes conv firstFrame frames jl.1, true⟩)

/-- `clean_empty_fcurves`: remove every F-Curve with no keyframes. -/
def cleanEmpty (curves : List (FCurveM L)) : List (FCurveM L) :=
  curves.filter (fun c => decide (¬ c.keyframes.length = 0))

/-- The post-`read_data` finalisation in `load`: prune empty curves unless
empty labels are retained, then test `action.fcurves == 0` to decide whether
to discard the action and report.  In Python that expression compares the
F-Curve collection object with the integer `0` and is therefore always
`False`, so the discard branch is dead code. -/
def fcurvesEqZero (curves : List (FCurveM L)) : Bool := false

/-- Returns the kept action's curves (`none` when the action is discarded) and
whether the no-valid-data warning was reported. -/
def finalizeAction (includeEmptyLabels : Bool) (curves : List (FCurveM L)) :
    Option (List (FCurveM L)) × Bool :=
  let cs := if includeEmptyLabels then curves else cleanEmpty curves
  if fcurvesEqZero cs then (none, true) else (some cs, false)

/-!  Frame-range preparation in `load`: scene settings and the all-zero
trailing-frame heuristic. -/

/-- Scene timeline settings touched by the importer. -/
structure Scene where
  frameStart : ℤ
  frameEnd : ℤ
deriving DecidableEq

/-- The recording's inclusive last frame index: the cached frames cover
`[first_frame, last_frame]` consecutively. -/
def lastFrameOf (firstFrame : ℤ) (frames : List Frame) : ℤ :=
  firstFrame + frames.length - 1

/-- Absolute-value tolerance of `np.allclose(last_frame_points[:, :3], 0.0,
atol=1e-6)` against zero. -/
def zeroTol : ℚ := mkRat 1 1000000

/-- Whether the terminal frame's position data is all (near) zero:
`np.allclose(points[:, :3], 0.0, atol=1e-6)`, i.e. every coordinate of every
label has absolute value at most `1e-6`. -/
def lastFrameNearZero (f : Frame) : Bool :=
  f.all (fun s => decide (ratAbs s.x ≤ zeroTol) && decide (ratAbs s.y ≤ zeroTol) &&
    decide (ratAbs s.z ≤ zeroTol))

/-- Whether the terminal frame's position data is exactly zero (the claim's
reading of the heuristic). -/
def lastFrameExactZero (f : Frame) : Bool :=
  f.all (fun s => decide (s.x = 0) && decide (s.y = 0) && decide (s.z = 0))

/-- Scene and cached-frame preparation in `load`: when `set_end_frame` is on,
the timeline is set to `[first_frame, last_frame - 1]`; when the cached frame
list is non-empty and its terminal frame is all near zero, that frame is
dropped and the end frame lowered to `last_frame - 2`.  `nframes` is then
recomputed from the last kept frame's index, which under consecutive frame
numbering equals the kept list's length. -/
def loadPrep (setEndFrame : Bool) (firstFrame : ℤ) (frames : List Frame)
    (scene0 : Scene) : Scene × List Frame :=
  if (¬ frames = []) ∧ lastFrameNearZero (frames.getLastD []) = true then
    (if setEndFrame then ⟨firstFrame, lastFrameOf firstFrame frames - 2⟩ else scene0,
      frames.dropLast)
  else
    (if setEndFrame then ⟨firstFrame, lastFrameOf firstFrame frames - 1⟩ else scene0,
      frames)

/-!  Export channel mapper (`export_c3d`). -/

/-- The dense output cell: (x, y, z, residual, camera-mask-reserved). -/
structure P5 where
  x : ℚ
  y : ℚ
  z : ℚ
  resid : ℚ
  cam : ℚ
deriving DecidableEq

/-- Initial cell value: zero positions, `residual = -1`. -/
def P5.init : P5 := ⟨0, 0, 0, -1, 0⟩

/-- Write component `d` of a cell, mirroring `points[bone_index, d] = v`. -/
def setComp (p : P5) (d : ℕ) (v : ℚ) : P5 :=
  match d with
  | 0 => { p with x := v }
  | 1 => { p with y := v }
  | 2 => { p with z := v }
  | 3 => { p with resid := v }
  | 4 => { p with cam := v }
  | _ => p

/-- The dense `[frame, label]` output array, as a total function from
(row index, label column) to cells; only rows `0 ≤ r < frame_count` are
handed to the writer. -/
abbrev Grid := ℤ → ℕ → P5

/-- Python `int(x)`: truncation toward zero. -/
def pyInt (q : ℚ) : ℤ := q.num.tdiv q.den

/-- Process one keyframe point of a location curve:
`frame_index = int(kp.co[0]) - frame_start`; if within `[0, frame_count)`,
write the value at `(frame_index, bone_index, array_index)` and set that
cell's residual to 0. -/
def writeKp (frameStart frameCount : ℤ) (b d : ℕ) (g : Grid) (kp : KP) : Grid :=
  if 0 ≤ pyInt kp.time - frameStart ∧ pyInt kp.time - frameStart < frameCount then
    fun r j => if r = pyInt kp.time - frameStart ∧ j = b then
      setComp (setComp (g r j) d kp.value) 3 0
    else g r j
  else g

/-- An armature object with its action's F-Curves. -/
structure ArmObj (L : Type _) where
  name : PyStr
  curves : List (FCurveM L)

/-- A full bone name as built by `get_full_bone_name`: either the bare bone
name (for the `"UNLABELED"` armature) or the armature name together with the
bone name. -/
inductive FullLabel (L : Type _) where
  | bare (bone : L)
  | withArm (arm : PyStr) (bone : L)
deriving DecidableEq

/-- `get_full_bone_name`: the bare bone name for the `"UNLABELED"` armature,
otherwise the armature name paired with the bone name (Python concatenates
`f"{armature.name}:{bone}"`; the pair representation keeps the same
distinctions for names without embedded colons). -/
def fullName (o : ArmObj L) (c : FCurveM L) : FullLabel L :=
  if o.name = unlabeledStr then .bare c.bone else .withArm o.name c.bone

/-- The exporter's ordered label list: every F-Curve of every armature
contributes its full bone name, deduplicated in first-seen order
(`list(dict.fromkeys(labels))`). -/
def collectLabels (objs : List (ArmObj L)) : List (FullLabel L) :=
  dedupFirst (objs.flatMap (fun o => o.curves.map (fullName o)))

/-- Python `labels.index(full_bone_name)`: position of the first occurrence. -/
def firstIdx {α : Type _} [DecidableEq α] (a : α) : List α → ℕ
  | [] => 0
  | x :: xs => if x = a then 0 else firstIdx a xs + 1

/-- Process one F-Curve: only curves whose data path ends in `.location` and
whose full bone name is among the collected labels write any data. -/
def scatterCurve (frameStart frameCount : ℤ) (labels : List (FullLabel L))
    (o : ArmObj L) (g : Grid) (c : FCurveM L) : Grid :=
  if c.kind = .location then
    if fullName o c ∈ labels then
      c.keyframes.foldl
        (writeKp frameStart frameCount (firstIdx (fullName o c) labels) c.arrayIndex) g
    else g
  else g

/-- The dense array after the collection loop, before re-orientation. -/
def exportGrid (frameStart frameCount : ℤ) (labels : List (FullLabel L))
    (objs : List (ArmObj L)) : Grid :=
  objs.foldl (fun g o => o.curves.foldl (scatterCurve frameStart frameCount labels o) g)
    (fun _ _ => P5.init)

/-- Apply the export orientation/scale matrix to a cell's position part
(`keyframes[..., :3] = keyframes[..., :3] @ global_orient.T`). -/
def orientCell (m : Mat3) (p : P5) : P5 :=
  { p with
      x := (m.mulVec ⟨p.x, p.y, p.z⟩).x,
      y := (m.mulVec ⟨p.x, p.y, p.z⟩).y,
      z := (m.mulVec ⟨p.x, p.y, p.z⟩).z }

/-- Result of `export_c3d`: ordered label list, `frame_count`, and the dense
array. -/
structure ExportOut (L : Type _) where
  labels : List (FullLabel L)
  frameCount : ℤ
  grid : Grid

/-- `export_c3d` with the orientation/scale matrix `orient`: collect labels
(aborting with `CANCELLED` when none), allocate `frame_count =
scene.frame_end + 1 - scene.frame_start` default rows, scatter every location
keyframe within range, then re-orient the position columns. -/
def exportC3D (orient : Mat3) (scene : Scene) (objs : List (ArmObj L)) :
    Option (ExportOut L) :=
  if (collectLabels objs).isEmpty then none
  else
    some ⟨collectLabels objs, scene.frameEnd + 1 - scene.frameStart,
      fun r j => orientCell orient
        (exportGrid scene.frameStart (scene.frameEnd + 1 - scene.frameStart)
          (collectLabels objs) objs r j)⟩

/-- Import followed by export under the round-trip conditions of the claim:
identity orientation and scale on both sides, no label masking, a single
armature (no actor splitting), empty labels retained, no frame-rate
resampling (`conv_fac_frame_rate = 1`), scene range as set by the import
(`set_end_frame` enabled). -/
def roundTrip (maxResidual : ℚ) (interp : Interp) (armName : PyStr)
    (labels : List L) (firstFrame : ℤ) (frames : List Frame) :
    Option (ExportOut L) :=
  exportC3D idMat (loadPrep true firstFrame frames ⟨0, 0⟩).1
    [⟨armName, importFCurves maxResidual 1 idMat interp firstFrame
        (loadPrep true firstFrame frames ⟨0, 0⟩).2 labels⟩]

/-- Relative closeness within `1e-4`, the claim's floating-point tolerance. -/
def closeQ (a b : ℚ) : Prop := ratAbs (a - b) ≤ mkRat 1 10000 * ratAbs b

/-- The round-trip claim at one recording: the export succeeds, every
original frame has a row in the export, valid samples are reproduced within
`1e-4` relative tolerance, and originally-invalid samples carry
`residual == -1`. -/
def roundTripClaim (maxResidual : ℚ) (interp : Interp) (armName : PyStr)
    (labels : List L) (firstFrame : ℤ) (frames : List Frame) : Prop :=
  ∃ out, roundTrip maxResidual interp armName labels firstFrame frames = some out ∧
    ∀ k, k < frames.length → ((k : ℤ) < out.frameCount ∧
      ∀ j, j < labels.length →
        (validAt maxResidual frames k j = true →
          closeQ (out.grid k j).x (posAt frames k j).x ∧
          closeQ (out.grid k j).y (posAt frames k j).y ∧
          closeQ (out.grid k j).z (posAt frames k j).z) ∧
        (validAt maxResidual frames k j = false → (out.grid k j).resid = -1))

/-- The full bone name assigned by the exporter to bone `l` of the armature
named `armName` (abbreviates `fullName` for a fixed armature). -/
def armLabel (armName : PyStr) (l : L) : FullLabel L :=
  if armName = unlabeledStr then .bare l else .withArm armName l

/-!  Concrete inputs used by counterexamples and witnesses. -/

/-- A 2-frame, 1-label recording with both samples valid and a clearly
non-zero terminal frame. -/
def cframes2 : List Frame := [[⟨1, 2, 3, 0⟩], [⟨4, 5, 6, 0⟩]]

/-- A label list whose only label has the entity prefix `"UNLABELED"`. -/
def unlabeledHip : PyStr := "UNLABELED:Hip".toList

/-- The partitioning scenario of the claim. -/
def scenarioLabels : List PyStr :=
  ["Actor1:Hip".toList, "Actor1:Knee".toList, "Head".toList]

/-- An event list with a malformed entry between two well-formed ones. -/
def badEvents : List (EventItem ℕ) := [.ok 1 0, .malformed, .ok 2 1]

/-- A recording whose terminal frame is non-zero but within the `1e-6`
tolerance of the trailing-frame heuristic. -/
def cfTinyTail : List Frame := [[⟨1, 1, 1, 0⟩], [⟨mkRat 1 10000000, 0, 0, 0⟩]]

/-- A recording whose terminal frame is exactly zero. -/
def cfZeroTail : List Frame := [[⟨1, 1, 1, 0⟩], [⟨2, 2, 2, 0⟩], [⟨0, 0, 0, 0⟩]]

/-- A 3-frame recording whose residual column is `[5, 5, 7]`. -/
def cf6 : List Frame := [[⟨0, 0, 0, 5⟩], [⟨0, 0, 0, 5⟩], [⟨0, 0, 0, 7⟩]]

/-- A 1-frame recording meant to be read with `first_frame = 1`: its only
frame has native frame index 1, list position 0. -/
def cf4 : List Frame := [[⟨5, 6, 7, 0⟩]]

/-! Theorems. -/

/-- C1: for every frame sample and every label, the validity flag derived by
`read_data` equals `residual >= 0 and (threshold <= 0 or residual < threshold)`
where the threshold is the caller-supplied `max_residual`. -/
theorem residual_policy_eq (maxResidual : ℚ) (frames : List Frame) (k j : ℕ) :
    validAt maxResidual frames k j =
      (decide (0 ≤ residAt frames k j) &&
        (decide (maxResidual ≤ 0) || decide (residAt frames k j < maxResidual))) := by
  unfold validAt validSample
  rcases lt_or_le 0 maxResidual with h | h
  · rw [if_pos h]
    have h' : ¬ maxResidual ≤ 0 := not_le.mpr h
    simp [h', Bool.and_comm]
  · rw [if_neg (not_lt.mpr h)]
    simp [h]

/-- The batch loop attempts every file and collects exactly the non-finished
ones, in order. -/
theorem batchLoop_eq {P : Type _} (files : List (P × FileRes)) :
    batchLoop files = (files.map Prod.fst,
      (files.filter (fun f => decide (¬ f.2 = FileRes.finished))).map Prod.fst) := by
  induction files with
  | nil => rfl
  | cons f rest ih =>
    obtain ⟨p, r⟩ := f
    by_cases h : r = FileRes.finished
    · simp [batchLoop, ih, h]
    · simp [batchLoop, ih, h]

/-- C9: in a batch import, one file's fatal error (including a raised
exception) does not abort the remaining files — every file is attempted, the
failed files are reported by name, with an `ERROR` exactly when all files
failed and a `WARNING` when only some did. -/
theorem batch_isolation {P : Type _} (files : List (P × FileRes))
    (hne : ¬ files = []) :
    executeBatch files =
      ⟨files.map Prod.fst, failedOf files,
        (if (failedOf files).isEmpty then none
         else if (failedOf files).length = files.length then
           some (Sev.error, failedOf files)
         else some (Sev.warning, failedOf files)),
        (if (failedOf files).isEmpty then true
         else if (failedOf files).length = files.length then false
         else true)⟩ := by
  unfold executeBatch failedOf
  rw [batchLoop_eq]
  split_ifs <;> rfl

/-- C9 witness: a concrete three-file batch with one exception and one
cancellation after a success: all three attempted, the two failures reported
as a warning. -/
theorem batch_isolation_witness :
    (¬ ([((0 : ℕ), FileRes.finished), (1, FileRes.errored), (2, FileRes.cancelled)] :
        List (ℕ × FileRes)) = []) ∧
    executeBatch [((0 : ℕ), FileRes.finished), (1, FileRes.errored), (2, FileRes.cancelled)] =
      ⟨[0, 1, 2], [1, 2], some (Sev.warning, [1, 2]), true⟩ := by
  refine ⟨by decide, ?_⟩
  rw [batch_isolation _ (by decide)]
  decide

/-- C8: the discard branch for an action left with zero keyframed curves is
dead code — `action.fcurves == 0` compares a collection with an integer and
is always `False` in Python, so the action is never discarded and the
no-valid-data warning is never reported. -/
theorem empty_action_never_discarded (includeEmptyLabels : Bool)
    (curves : List (FCurveM ℕ)) :
    (finalizeAction includeEmptyLabels curves).2 = false ∧
    ((finalizeAction includeEmptyLabels curves).1).isSome = true := by
  unfold finalizeAction fcurvesEqZero
  simp

/-- C7 (counterexample): a well-formed event after a malformed one produces
no marker — the single `try` around the event loop aborts the remaining
events of the sequence. -/
theorem events_claim_fails :
    readEventsGo 1 badEvents = ([((1 : ℤ), (0 : ℕ))], true) ∧
    ¬ (((2 : ℤ), (1 : ℕ)) ∈ (readEventsGo 1 badEvents).1) := by
  have h : readEventsGo 1 badEvents = ([((1 : ℤ), (0 : ℕ))], true) := by
    simp only [badEvents, readEventsGo]
    norm_num [roundHalfEven]
  exact ⟨h, by rw [h]; decide⟩

/-- C7 (amended): the markers produced are exactly those of the well-formed
prefix before the first malformed event, each at time
`int(np.round(frame * conv))`; a malformed event anywhere is reported once
and aborts the remaining events (already-created markers persist). -/
theorem events_amended {L : Type _} [Inhabited L] (conv : ℚ)
    (evs : List (EventItem L)) :
    readEventsGo conv evs =
      ((evs.takeWhile EventItem.isOk).map
          (fun e => (roundHalfEven (e.frameOf * conv), e.labelOf)),
        evs.any (fun e => ! e.isOk)) := by
  induction evs with
  | nil => rfl
  | cons e rest ih =>
    cases e with
    | malformed => simp [readEventsGo, EventItem.isOk, List.takeWhile_cons]
    | ok f l =>
      simp [readEventsGo, ih, EventItem.isOk, EventItem.frameOf, EventItem.labelOf,
        List.takeWhile_cons]

/-- C10: with the set-end-frame option enabled, the import sets the timeline
start to the first frame index and the end frame to `last_frame - 1`, lowered
to `last_frame - 2` when the trailing all-zero frame heuristic fires. -/
theorem set_end_frame_behavior (firstFrame : ℤ) (frames : List Frame)
    (scene0 : Scene) :
    (loadPrep true firstFrame frames scene0).1.frameStart = firstFrame ∧
    ((¬ frames = []) → lastFrameNearZero (frames.getLastD []) = true →
      (loadPrep true firstFrame frames scene0).1.frameEnd =
        lastFrameOf firstFrame frames - 2) ∧
    ((frames = [] ∨ lastFrameNearZero (frames.getLastD []) = false) →
      (loadPrep true firstFrame frames scene0).1.frameEnd =
        lastFrameOf firstFrame frames - 1) := by
  by_cases h : (¬ frames = []) ∧ lastFrameNearZero (frames.getLastD []) = true
  · unfold loadPrep
    rw [if_pos h]
    refine ⟨rfl, fun _ _ => rfl, fun hc => ?_⟩
    rcases hc with hc | hc
    · exact absurd hc h.1
    · rw [h.2] at hc; cases hc
  · unfold loadPrep
    rw [if_neg h]
    exact ⟨rfl, fun h1 h2 => absurd ⟨h1, h2⟩ h, fun _ => rfl⟩

theorem set_end_frame_witness :
    (loadPrep true 3 cframes2 ⟨0, 0⟩).1.frameStart = 3 ∧
    (cframes2 = [] ∨ lastFrameNearZero (cframes2.getLastD []) = false) ∧
    (loadPrep true 3 cframes2 ⟨0, 0⟩).1.frameEnd = lastFrameOf 3 cframes2 - 1 := by
  obtain ⟨h1, -, h3⟩ := set_end_frame_behavior 3 cframes2 ⟨0, 0⟩
  have hc : cframes2 = [] ∨ lastFrameNearZero (cframes2.getLastD []) = false :=
    Or.inr (by decide)
  exact ⟨h1, hc, h3 hc⟩

/-- One step of the run-length loop when the value is new. -/
theorem rleGo_keep (prev : Option ℚ) (tv : ℚ × ℚ) (rest : List (ℚ × ℚ))
    (h : rleNew prev tv.2 = true) :
    rleGo prev (tv :: rest) = tv :: rleGo (some tv.2) rest := by
  simp only [rleGo]
  rw [if_pos h]

/-- One step of the run-length loop when the value repeats. -/
theorem rleGo_drop (prev : Option ℚ) (tv : ℚ × ℚ) (rest : List (ℚ × ℚ))
    (h : rleNew prev tv.2 = false) :
    rleGo prev (tv :: rest) = rleGo prev rest := by
  simp only [rleGo]
  rw [h]
  simp

/-- Invariant form of the run-length loop: once `previous_value` holds the
value of position `i - 1`, a later pair is kept exactly when its value
differs from its predecessor's. -/
theorem rleGo_some_range (v t : ℕ → ℚ) :
    ∀ (c i : ℕ), 1 ≤ i →
      rleGo (some (v (i - 1))) ((List.range' i c).map (fun k => (t k, v k))) =
        ((List.range' i c).filter (fun k => decide (¬ v k = v (k - 1)))).map
          (fun k => (t k, v k)) := by
  intro c
  induction c with
  | zero => intro i _; rfl
  | succ c ih =>
    intro i hi
    have hr : List.range' i (c + 1) = i :: List.range' (i + 1) c := rfl
    have hi1 : (i + 1) - 1 = i := by omega
    have ih' := ih (i + 1) (by omega)
    rw [hi1] at ih'
    rw [hr, List.map_cons]
    by_cases hv : v i = v (i - 1)
    · rw [rleGo_drop _ _ _ (by simp [rleNew, hv])]
      rw [List.filter_cons_of_neg (by simp [hv])]
      rw [← hv, ih']
    · rw [rleGo_keep _ _ _ (by simp [rleNew, hv])]
      rw [List.filter_cons_of_pos (by simp [hv])]
      rw [List.map_cons, ih']

/-- The run-length loop keeps position `k` exactly when `k = 0` or the value
changed from position `k - 1`. -/
theorem rleGo_none_range (v t : ℕ → ℚ) (n : ℕ) :
    rleGo none ((List.range n).map (fun k => (t k, v k))) =
      ((List.range n).filter
          (fun k => decide (k = 0) || decide (¬ v k = v (k - 1)))).map
        (fun k => (t k, v k)) := by
  cases n with
  | zero => rfl
  | succ n =>
    rw [List.range_eq_range']
    have hr : List.range' 0 (n + 1) = 0 :: List.range' 1 n := rfl
    rw [hr, List.map_cons]
    rw [rleGo_keep _ _ _ (by simp [rleNew])]
    rw [List.filter_cons_of_pos (by simp)]
    rw [List.map_cons]
    congr 1
    have h0 : rleGo (some (v (1 - 1))) ((List.range' 1 n).map (fun k => (t k, v k))) =
        ((List.range' 1 n).filter (fun k => decide (¬ v k = v (k - 1)))).map
          (fun k => (t k, v k)) := rleGo_some_range v t n 1 le_rfl
    norm_num at h0
    rw [h0]
    congr 1
    apply List.filter_congr
    intro x hx
    have h1 : 1 ≤ x := (List.mem_range'_1.mp hx).1
    have h2 : decide (x = 0) = false := by simp; omega
    rw [h2, Bool.false_or]
    simp

/-- C6: the per-label residual channel is run-length compressed — a keyframe
at offset `k` exists iff `k = 0` or the residual differs from frame `k - 1`;
every keyframe uses CONSTANT (step) interpolation; the residual F-Curves are
locked. -/
theorem residual_rle {L : Type _} [DecidableEq L] (maxResidual conv : ℚ)
    (orient : Mat3) (interp : Interp) (firstFrame : ℤ) (frames : List Frame)
    (j : ℕ) (labels : List L) :
    ((residKeyframes conv firstFrame frames j).map (fun kp => (kp.time, kp.value)) =
      ((List.range frames.length).filter
          (fun k => decide (k = 0) ||
            decide (¬ residAt frames k j = residAt frames (k - 1) j))).map
        (fun (k : ℕ) => (((firstFrame : ℚ) + (k : ℚ)) * conv, residAt frames k j))) ∧
    (∀ kp ∈ residKeyframes conv firstFrame frames j, kp.interp = Interp.CONSTANT) ∧
    (∀ c ∈ importFCurves maxResidual conv orient interp firstFrame frames labels,
      c.kind = PathKind.residualProp → c.lock = true) := by
  refine ⟨?_, ?_, ?_⟩
  · unfold residKeyframes
    rw [List.map_map]
    have hid : ((fun kp => (kp.time, kp.value)) ∘
        (fun tv : ℚ × ℚ => (⟨tv.1, tv.2, Interp.CONSTANT⟩ : KP))) = id := by
      funext tv; rfl
    rw [hid, List.map_id]
    exact rleGo_none_range (fun k => residAt frames k j)
      (fun k => ((firstFrame : ℚ) + (k : ℚ)) * conv) frames.length
  · intro kp hkp
    unfold residKeyframes at hkp
    rcases List.mem_map.mp hkp with ⟨tv, -, rfl⟩
    rfl
  · intro c hc hk
    rcases List.mem_append.mp hc with h | h
    · rcases List.mem_bind.mp h with ⟨jl, -, hm⟩
      rcases List.mem_map.mp hm with ⟨d, -, rfl⟩
      simp [mkLocCurve] at hk
    · rcases List.mem_map.mp h with ⟨jl, -, rfl⟩
      rfl

/-- C6 witness: residual column `[5, 5, 7]` keyframes only frames 0 and 2. -/
theorem residual_rle_witness :
    (residKeyframes 1 0 cf6 0).map (fun kp => (kp.time, kp.value)) =
      [((0 : ℚ), (5 : ℚ)), ((2 : ℚ), (7 : ℚ))] := by
  rw [(residual_rle (L := ℕ) 0 1 idMat Interp.BEZIER 0 cf6 0 []).1]
  have hr : List.range cf6.length = [0, 1, 2] := by decide
  rw [hr]
  have hf : [0, 1, 2].filter
      (fun k => decide (k = 0) ||
        decide (¬ residAt cf6 k 0 = residAt cf6 (k - 1) 0)) = [0, 2] := by decide
  rw [hf]
  have h5 : residAt cf6 0 0 = 5 := rfl
  have h7 : residAt cf6 2 0 = 7 := rfl
  rw [List.map_cons, List.map_cons, List.map_nil, h5, h7]
  norm_num

/-- Elements of the run-length output come from the input list. -/
theorem mem_rleGo (x : ℚ × ℚ) :
    ∀ (prev : Option ℚ) (l : List (ℚ × ℚ)), x ∈ rleGo prev l → x ∈ l := by
  intro prev l
  induction l generalizing prev with
  | nil => intro h; exact absurd h (List.not_mem_nil x)
  | cons tv rest ih =>
    intro h
    by_cases hn : rleNew prev tv.2 = true
    · rw [rleGo_keep _ _ _ hn] at h
      rcases List.mem_cons.mp h with rfl | h
      · exact List.mem_cons_self _ _
      · exact List.mem_cons_of_mem _ (ih _ h)
    · rw [rleGo_drop _ _ _ (by simpa using hn)] at h
      exact List.mem_cons_of_mem _ (ih _ h)

/-- C4 (amended): position channels contain exactly the valid frames, at
times `(native_frame - first_frame) * resample_factor` (the frame offset
relative to the first frame), while residual channels use absolute native
frame indices `(first_frame + offset) * resample_factor`. -/
theorem keyframe_times_amended (maxResidual conv : ℚ) (orient : Mat3)
    (interp : Interp) (firstFrame : ℤ) (frames : List Frame) (j d : ℕ) :
    ((locKeyframes maxResidual conv orient frames interp j d).map KP.time =
      (validIdx maxResidual frames j).map (fun (k : ℕ) => (k : ℚ) * conv)) ∧
    (∀ k : ℕ, ((k : ℚ) ∈ (locKeyframes maxResidual 1 orient frames interp j d).map KP.time) ↔
      (k < frames.length ∧ validAt maxResidual frames k j = true)) ∧
    (∀ kp ∈ residKeyframes conv firstFrame frames j,
      ∃ k : ℕ, k < frames.length ∧ kp.time = ((firstFrame : ℚ) + (k : ℚ)) * conv) := by
  refine ⟨?_, ?_, ?_⟩
  · unfold locKeyframes
    rw [List.map_map]
    rfl
  · intro k
    constructor
    · intro hmem
      unfold locKeyframes at hmem
      rw [List.map_map] at hmem
      rcases List.mem_map.mp hmem with ⟨m, hm, he⟩
      have he' : ((m : ℚ)) * 1 = (k : ℚ) := he
      rw [mul_one] at he'
      have hmk : m = k := Nat.cast_inj.mp he'
      subst hmk
      have h2 : m < frames.length ∧ validAt maxResidual frames m j = true := by
        simpa [validIdx, List.mem_filter, List.mem_range] using hm
      exact h2
    · rintro ⟨hlt, hval⟩
      unfold locKeyframes
      rw [List.map_map]
      refine List.mem_map.mpr ⟨k, ?_, ?_⟩
      · simp [validIdx, List.mem_filter, List.mem_range, hlt, hval]
      · show ((k : ℚ)) * 1 = (k : ℚ)
        rw [mul_one]
  · intro kp hkp
    unfold residKeyframes at hkp
    rcases List.mem_map.mp hkp with ⟨tv, htv, rfl⟩
    have h2 := mem_rleGo tv none _ htv
    rcases List.mem_map.mp h2 with ⟨k, hk, rfl⟩
    exact ⟨k, List.mem_range.mp hk, rfl⟩

/-- C4 (counterexample): a valid single-frame recording starting at native
frame 1, at resample factor 1.0: the position channel keyframe sits at time
0 while the residual channel (and the native index) sit at 1, so position
and residual times are not alike equal to native frame indices. -/
theorem keyframe_times_claim_fails :
    (locKeyframes 0 1 idMat cf4 Interp.BEZIER 0 0).map KP.time = [(0 : ℚ)] ∧
    (residKeyframes 1 1 cf4 0).map KP.time = [(1 : ℚ)] ∧
    ¬ ((locKeyframes 0 1 idMat cf4 Interp.BEZIER 0 0).map KP.time =
        (residKeyframes 1 1 cf4 0).map KP.time) := by
  have h1 : (locKeyframes 0 1 idMat cf4 Interp.BEZIER 0 0).map KP.time = [(0 : ℚ)] := by
    have hv : validIdx 0 cf4 0 = [0] := by decide
    unfold locKeyframes
    rw [List.map_map, hv]
    norm_num
  have h2 : (residKeyframes 1 1 cf4 0).map KP.time = [(1 : ℚ)] := by
    unfold residKeyframes
    rw [List.map_map]
    have hr : List.range cf4.length = [0] := by decide
    rw [hr]
    have hk : rleNew none (residAt cf4 0 0) = true := rfl
    rw [List.map_cons, List.map_nil, rleGo_keep _ _ _ hk]
    show [((1 : ℚ) + (0 : ℕ)) * 1] = [(1 : ℚ)]
    norm_num
  refine ⟨h1, h2, ?_⟩
  rw [h1, h2]
  intro hcontra
  have h01 : (0 : ℚ) = 1 := by
    simpa using hcontra
  norm_num at h01

/-- C5 (counterexample): a terminal frame that is non-zero (coordinate
`1e-7`) but within the heuristic's `1e-6` tolerance is still dropped, so the
frame range shrinks although the claim says non-all-zero terminal frames keep
the full range. -/
theorem zero_tail_claim_fails :
    lastFrameExactZero (cfTinyTail.getLastD []) = false ∧
    ¬ ((loadPrep true 0 cfTinyTail ⟨0, 0⟩).2 = cfTinyTail) ∧
    (loadPrep true 0 cfTinyTail ⟨0, 0⟩).2.length = 1 ∧ cfTinyTail.length = 2 := by
  refine ⟨by decide, by decide, by decide, by decide⟩

/-- C5 (amended): the terminal frame is dropped exactly when all its
coordinates are within `1e-6` in absolute value (`np.allclose` tolerance) —
in particular an exactly-zero terminal frame is dropped, the frame range
shrinks by one, the timeline end becomes `last_frame - 2`, and every position
keyframe then corresponds to a native frame at most `last_frame - 1`; a
terminal frame with some coordinate larger than the tolerance keeps the full
range. -/
theorem zero_tail_amended (maxResidual : ℚ) (orient : Mat3) (interp : Interp)
    (firstFrame : ℤ) (frames : List Frame) (scene0 : Scene)
    (hne : ¬ frames = []) :
    (∀ f : Frame, lastFrameExactZero f = true → lastFrameNearZero f = true) ∧
    (lastFrameNearZero (frames.getLastD []) = true →
      (loadPrep true firstFrame frames scene0).2 = frames.dropLast ∧
      (loadPrep true firstFrame frames scene0).2.length = frames.length - 1 ∧
      (loadPrep true firstFrame frames scene0).1.frameEnd =
        lastFrameOf firstFrame frames - 2 ∧
      (∀ j d kp, kp ∈ locKeyframes maxResidual 1 orient
          (loadPrep true firstFrame frames scene0).2 interp j d →
        ((firstFrame : ℤ) : ℚ) + kp.time ≤ ((lastFrameOf firstFrame frames : ℤ) : ℚ) - 1)) ∧
    (lastFrameNearZero (frames.getLastD []) = false →
      (loadPrep true firstFrame frames scene0).2 = frames ∧
      (loadPrep true firstFrame frames scene0).1.frameEnd =
        lastFrameOf firstFrame frames - 1) := by
  refine ⟨?_, ?_, ?_⟩
  · intro f h
    simp only [lastFrameExactZero, List.all_eq_true, Bool.and_eq_true,
      decide_eq_true_eq] at h
    simp only [lastFrameNearZero, List.all_eq_true, Bool.and_eq_true,
      decide_eq_true_eq]
    intro s hs
    obtain ⟨⟨hx, hy⟩, hz⟩ := h s hs
    rw [hx, hy, hz]
    exact ⟨⟨by decide, by decide⟩, by decide⟩
  · intro hz
    unfold loadPrep
    rw [if_pos ⟨hne, hz⟩]
    refine ⟨rfl, List.length_dropLast frames, rfl, ?_⟩
    intro j d kp hkp
    unfold locKeyframes at hkp
    rcases List.mem_map.mp hkp with ⟨k, hk, rfl⟩
    have hk2 : k < frames.dropLast.length := by
      have := List.mem_filter.mp hk
      exact List.mem_range.mp this.1
    rw [List.length_dropLast] at hk2
    have hn1 : 1 ≤ frames.length := by
      cases frames with
      | nil => exact absurd rfl hne
      | cons f fs => simp
    have hk3 : k + 2 ≤ frames.length := by omega
    have hc : ((k : ℚ)) + 2 ≤ (frames.length : ℚ) := by
      exact_mod_cast hk3
    show ((firstFrame : ℤ) : ℚ) + (k : ℚ) * 1 ≤ _
    unfold lastFrameOf
    push_cast
    linarith
  · intro hz
    unfold loadPrep
    rw [if_neg (fun hand => by rw [hz] at hand; exact absurd hand.2 (by simp))]
    exact ⟨rfl, rfl⟩

/-- C5 witness: a recording whose terminal frame is exactly zero loses that
frame, the timeline end drops to `last_frame - 2`, and all keyframe times
stay at or below `last_frame - 1`. -/
theorem zero_tail_witness :
    (¬ cfZeroTail = []) ∧ lastFrameNearZero (cfZeroTail.getLastD []) = true ∧
    ((loadPrep true 0 cfZeroTail ⟨0, 0⟩).2 = cfZeroTail.dropLast ∧
      (loadPrep true 0 cfZeroTail ⟨0, 0⟩).2.length = cfZeroTail.length - 1 ∧
      (loadPrep true 0 cfZeroTail ⟨0, 0⟩).1.frameEnd = lastFrameOf 0 cfZeroTail - 2 ∧
      (∀ j d kp, kp ∈ locKeyframes 0 1 idMat
          (loadPrep true 0 cfZeroTail ⟨0, 0⟩).2 Interp.BEZIER j d →
        (((0 : ℤ) : ℚ)) + kp.time ≤ ((lastFrameOf 0 cfZeroTail : ℤ) : ℚ) - 1)) :=
  ⟨by decide, by decide,
    (zero_tail_amended 0 idMat Interp.BEZIER 0 cfZeroTail ⟨0, 0⟩ (by decide)).2.1
      (by decide)⟩

/-- Membership is preserved by first-occurrence deduplication. -/
theorem mem_dedupFirst {α : Type _} [DecidableEq α] (a : α) :
    ∀ l : List α, a ∈ dedupFirst l ↔ a ∈ l := by
  intro l
  induction l with
  | nil => simp [dedupFirst]
  | cons x xs ih =>
    simp only [dedupFirst, List.mem_cons, List.mem_filter, ih, decide_eq_true_eq]
    constructor
    · rintro (rfl | ⟨h, -⟩)
      · exact Or.inl rfl
      · exact Or.inr h
    · rintro (rfl | h)
      · exact Or.inl rfl
      · by_cases hx : a = x
        · exact Or.inl hx
        · exact Or.inr ⟨h, hx⟩

/-- The part before the first colon contains no colon. -/
theorem splitActor_colon_free (s : PyStr) : containsColon (splitActor s) = false := by
  unfold containsColon
  simp only [decide_eq_false_iff_not]
  intro hmem
  have := List.mem_takeWhile_imp hmem
  simp at this

/-- For a colon-free candidate `a`, `label.startswith(a + ":")` holds exactly
when the label contains a colon and its part before the first colon is `a`. -/
theorem prefixColon_iff (a : PyStr) (ha : containsColon a = false) :
    ∀ l : PyStr, (a ++ [':']).isPrefixOf l = true ↔
      (containsColon l = true ∧ splitActor l = a) := by
  induction a with
  | nil =>
    intro l
    cases l with
    | nil => simp [List.isPrefixOf, containsColon]
    | cons c cs =>
      by_cases hc : c = ':'
      · subst hc
        simp [List.isPrefixOf, containsColon, splitActor, List.takeWhile_cons]
      · simp [List.isPrefixOf, containsColon, splitActor, List.takeWhile_cons, hc,
          Ne.symm hc]
  | cons b bs ih =>
    intro l
    have hb : ¬ b = ':' := by
      intro hb
      subst hb
      simp [containsColon] at ha
    have ha' : containsColon bs = false := by
      simp only [containsColon, decide_eq_false_iff_not] at ha ⊢
      intro hmem
      exact ha (List.mem_cons_of_mem _ hmem)
    cases l with
    | nil => simp [List.isPrefixOf, containsColon]
    | cons c cs =>
      by_cases hbc : b = c
      · subst hbc
        have hl : ((b :: bs ++ [':']).isPrefixOf (b :: cs)) = ((bs ++ [':']).isPrefixOf cs) := by
          simp [List.isPrefixOf]
        rw [hl, ih ha' cs]
        have hcc : containsColon (b :: cs) = containsColon cs := by
          simp only [containsColon]
          rw [decide_eq_decide, List.mem_cons, or_iff_right (fun h => hb h.symm)]
        have hsp : splitActor (b :: cs) = b :: splitActor cs := by
          simp [splitActor, List.takeWhile_cons, hb]
        rw [hcc, hsp]
        constructor
        · rintro ⟨h1, h2⟩
          exact ⟨h1, by rw [h2]⟩
        · rintro ⟨h1, h2⟩
          exact ⟨h1, by injection h2⟩
      · constructor
        · intro hpre
          exfalso
          have : (b :: (bs ++ [':'])).isPrefixOf (c :: cs) = true := hpre
          simp [List.isPrefixOf] at this
          exact hbc this.1
        · rintro ⟨h1, h2⟩
          exfalso
          by_cases hc : c = ':'
          · subst hc
            have : splitActor (':' :: cs) = [] := by
              simp [splitActor, List.takeWhile_cons]
            rw [this] at h2
            exact (List.cons_ne_nil _ _) h2.symm
          · have hsp : splitActor (c :: cs) = c :: splitActor cs := by
              simp [splitActor, List.takeWhile_cons, hc]
            rw [hsp] at h2
            injection h2 with hcb htl
            exact hbc hcb.symm

/-- Every actor discovered by `get_actors` is either the sentinel
`"UNLABELED"` or a colon-free prefix of one of the labels. -/
theorem getActors_shape (labels : List PyStr) (a : PyStr)
    (ha : a ∈ getActors labels) :
    a = unlabeledStr ∨ (containsColon a = false ∧ ∃ l ∈ labels,
      containsColon l = true ∧ splitActor l = a) := by
  unfold getActors at ha
  rcases List.mem_map.mp ((mem_dedupFirst a _).mp ha) with ⟨l, hl, rfl⟩
  unfold actorOf
  by_cases hc : containsColon l = true
  · rw [if_pos hc]
    exact Or.inr ⟨splitActor_colon_free l, l, hl, hc, rfl⟩
  · rw [if_neg hc]
    exact Or.inl rfl

/-- The actor assigned to a label selects that label, provided the label does
not begin with `"UNLABELED:"`. -/
theorem actorOf_mask_self (l : PyStr)
    (hl : ¬ (unlabeledStr ++ [':']).isPrefixOf l = true) :
    maskElem (actorOf l) l = true := by
  unfold actorOf maskElem
  by_cases hc : containsColon l = true
  · rw [if_pos hc]
    have hne : ¬ splitActor l = unlabeledStr := by
      intro he
      apply hl
      rw [← he]
      exact (prefixColon_iff (splitActor l) (splitActor_colon_free l) l).mpr ⟨hc, rfl⟩
    rw [if_neg hne]
    exact (prefixColon_iff (splitActor l) (splitActor_colon_free l) l).mpr ⟨hc, rfl⟩
  · rw [if_neg hc]
    rw [if_pos rfl]
    have hc2 : containsColon l = false := by
      cases hcv : containsColon l
      · rfl
      · exact absurd hcv hc
    rw [hc2]
    rfl

/-- Any discovered actor whose mask selects a label is that label's assigned
actor. -/
theorem mask_unique_actor (labels : List PyStr) (a l : PyStr)
    (ha : a ∈ getActors labels) (hm : maskElem a l = true) :
    a = actorOf l := by
  unfold maskElem at hm
  by_cases hu : a = unlabeledStr
  · subst hu
    rw [if_pos rfl] at hm
    unfold actorOf
    rw [if_neg ?_]
    intro hc
    rw [hc] at hm
    simp at hm
  · rw [if_neg hu] at hm
    rcases getActors_shape labels a ha with he | ⟨hfree, -⟩
    · exact absurd he hu
    · have := (prefixColon_iff a hfree l).mp hm
      unfold actorOf
      rw [if_pos this.1, this.2]

/-- C3 (counterexample): the label `"UNLABELED:Hip"` is selected by no
entity's mask — its assigned actor is the sentinel `"UNLABELED"`, whose mask
only selects labels without a separator. -/
theorem actor_masks_claim_fails :
    ¬ (∃ a ∈ getActors [unlabeledHip], maskElem a unlabeledHip = true) := by
  decide

/-- C3 (amended): provided no label begins with `"UNLABELED:"`, every label
position is selected by exactly one discovered entity's mask; the
`["Actor1:Hip", "Actor1:Knee", "Head"]` scenario produces the two entities
`Actor1` (mask 1,1,0) and `UNLABELED` (mask 0,0,1). -/
theorem actor_masks_amended (labels : List PyStr)
    (h : ∀ l ∈ labels, ¬ (unlabeledStr ++ [':']).isPrefixOf l = true) :
    (∀ l ∈ labels, ∃! a, a ∈ getActors labels ∧ maskElem a l = true) ∧
    ((getActors scenarioLabels).length = 2 ∧
      "Actor1".toList ∈ getActors scenarioLabels ∧
      unlabeledStr ∈ getActors scenarioLabels ∧
      actorMask "Actor1".toList scenarioLabels = [true, true, false] ∧
      actorMask unlabeledStr scenarioLabels = [false, false, true]) := by
  constructor
  · intro l hl
    refine ⟨actorOf l, ⟨?_, actorOf_mask_self l (h l hl)⟩, ?_⟩
    · unfold getActors
      exact (mem_dedupFirst _ _).mpr (List.mem_map_of_mem actorOf hl)
    · rintro a ⟨ha, hm⟩
      exact mask_unique_actor labels a l ha hm
  · refine ⟨by decide, by decide, by decide, by decide, by decide⟩

/-- C3 witness: the scenario labels satisfy the no-`"UNLABELED:"` proviso and
each of them is selected by exactly one mask. -/
theorem actor_masks_witness :
    (∀ l ∈ scenarioLabels, ¬ (unlabeledStr ++ [':']).isPrefixOf l = true) ∧
    (∀ l ∈ scenarioLabels, ∃! a, a ∈ getActors scenarioLabels ∧
      maskElem a l = true) :=
  ⟨by decide, (actor_masks_amended scenarioLabels (by decide)).1⟩

/-- Python `int` of a cast natural is that natural. -/
theorem pyInt_natCast (k : ℕ) : pyInt ((k : ℕ) : ℚ) = k := by
  unfold pyInt
  rw [Rat.num_natCast, Rat.den_natCast]
  simp

/-- Pointwise effect of one keyframe write. -/
theorem writeKp_apply (fs fcnt : ℤ) (b d : ℕ) (g : Grid) (kp : KP) (r : ℤ) (j : ℕ) :
    writeKp fs fcnt b d g kp r j =
      if (0 ≤ pyInt kp.time - fs ∧ pyInt kp.time - fs < fcnt) ∧
          r = pyInt kp.time - fs ∧ j = b then
        setComp (setComp (g r j) d kp.value) 3 0
      else g r j := by
  unfold writeKp
  by_cases h1 : 0 ≤ pyInt kp.time - fs ∧ pyInt kp.time - fs < fcnt
  · rw [if_pos h1]
    show (if r = pyInt kp.time - fs ∧ j = b then
        setComp (setComp (g r j) d kp.value) 3 0 else g r j) = _
    by_cases h2 : r = pyInt kp.time - fs ∧ j = b
    · rw [if_pos h2, if_pos ⟨h1, h2⟩]
    · rw [if_neg h2, if_neg (fun hh => h2 hh.2)]
  · rw [if_neg h1, if_neg (fun hh => h1 hh.1)]

/-- A fold of keyframe writes leaves a cell untouched when no keyframe
targets it. -/
theorem foldl_writeKp_untouched (fs fcnt : ℤ) (b d : ℕ) (r : ℤ) (j : ℕ) :
    ∀ (kps : List KP) (g : Grid),
      (∀ kp ∈ kps, ¬ (r = pyInt kp.time - fs ∧ j = b)) →
      kps.foldl (writeKp fs fcnt b d) g r j = g r j := by
  intro kps
  induction kps with
  | nil => intro g _; rfl
  | cons kp rest ih =>
    intro g h
    rw [List.foldl_cons]
    rw [ih _ (fun k hk => h k (List.mem_cons_of_mem _ hk))]
    rw [writeKp_apply]
    rw [if_neg (fun hh => h kp (List.mem_cons_self _ _) hh.2)]

/-- Characterisation of a location curve's writes into its own column, for
keyframes at whole-number times `k * 1` over a duplicate-free offset list. -/
theorem foldl_writeKp_nat (fcnt : ℤ) (b d : ℕ) (ip : Interp) (v : ℕ → ℚ) (r : ℤ) :
    ∀ (ks : List ℕ) (g : Grid), ks.Nodup →
      ((ks.map (fun (k : ℕ) => (⟨(k : ℚ) * 1, v k, ip⟩ : KP))).foldl
        (writeKp 0 fcnt b d) g) r b =
      if 0 ≤ r ∧ r < fcnt ∧ r.toNat ∈ ks then
        setComp (setComp (g r b) d (v r.toNat)) 3 0
      else g r b := by
  intro ks
  induction ks with
  | nil =>
    intro g _
    rw [List.map_nil, List.foldl_nil,
      if_neg (fun hh => (List.not_mem_nil _) hh.2.2)]
  | cons k rest ih =>
    intro g hnd
    rw [List.map_cons, List.foldl_cons]
    rw [ih _ (List.nodup_cons.mp hnd).2]
    have hpy : pyInt ((k : ℚ) * 1) - 0 = (k : ℤ) := by
      rw [mul_one, pyInt_natCast]
      ring
    by_cases hr : r = (k : ℤ)
    · subst hr
      have hk0 : ((k : ℤ)).toNat = k := Int.toNat_natCast k
      have hnot : ¬ (((k : ℤ)).toNat ∈ rest) := by
        rw [hk0]
        exact (List.nodup_cons.mp hnd).1
      rw [if_neg (fun hh => hnot hh.2.2)]
      rw [writeKp_apply, hpy]
      by_cases hfc : (k : ℤ) < fcnt
      · rw [if_pos ⟨⟨Int.natCast_nonneg k, hfc⟩, rfl, rfl⟩]
        rw [if_pos ⟨Int.natCast_nonneg k, hfc, by rw [hk0]; exact List.mem_cons_self _ _⟩]
        rw [hk0]
      · rw [if_neg (fun hh => hfc hh.1.2)]
        rw [if_neg (fun hh => hfc hh.2.1)]
    · have hg1 : writeKp 0 fcnt b d g ⟨(k : ℚ) * 1, v k, ip⟩ r b = g r b := by
        rw [writeKp_apply, hpy]
        exact if_neg (fun hh => hr hh.2.1)
      by_cases hcond : 0 ≤ r ∧ r < fcnt ∧ r.toNat ∈ rest
      · rw [if_pos hcond, hg1,
          if_pos ⟨hcond.1, hcond.2.1, List.mem_cons_of_mem _ hcond.2.2⟩]
      · rw [if_neg hcond, hg1]
        rw [if_neg ?hthis]
        case hthis =>
          rintro ⟨h0, h1, hmem⟩
          rcases List.mem_cons.mp hmem with he | he
          · apply hr
            omega
          · exact hcond ⟨h0, h1, he⟩

/-- A non-location curve writes nothing. -/
theorem scatter_nonloc {L : Type _} [DecidableEq L] (fs fcnt : ℤ)
    (labels : List (FullLabel L)) (o : ArmObj L) (g : Grid) (c : FCurveM L)
    (h : ¬ c.kind = PathKind.location) :
    scatterCurve fs fcnt labels o g c = g := by
  unfold scatterCurve
  rw [if_neg h]

/-- A curve writes only into its own bone's column. -/
theorem scatter_other_col {L : Type _} [DecidableEq L] (fs fcnt : ℤ)
    (labels : List (FullLabel L)) (o : ArmObj L) (g : Grid) (c : FCurveM L)
    (r : ℤ) (j : ℕ) (hb : ¬ firstIdx (fullName o c) labels = j) :
    scatterCurve fs fcnt labels o g c r j = g r j := by
  unfold scatterCurve
  by_cases hk : c.kind = PathKind.location
  · rw [if_pos hk]
    by_cases hm : fullName o c ∈ labels
    · rw [if_pos hm]
      exact foldl_writeKp_untouched _ _ _ _ _ _ _ _
        (fun kp _ hh => hb hh.2.symm)
    · rw [if_neg hm]
  · rw [if_neg hk]

/-- Folding over residual (non-location) curves leaves the grid unchanged. -/
theorem foldl_scatter_nonloc {L : Type _} [DecidableEq L] (fs fcnt : ℤ)
    (labels : List (FullLabel L)) (o : ArmObj L) :
    ∀ (cs : List (FCurveM L)) (g : Grid),
      (∀ c ∈ cs, ¬ c.kind = PathKind.location) →
      cs.foldl (scatterCurve fs fcnt labels o) g = g := by
  intro cs
  induction cs with
  | nil => intro g _; rfl
  | cons c rest ih =>
    intro g h
    rw [List.foldl_cons, scatter_nonloc _ _ _ _ _ _ (h c (List.mem_cons_self _ _))]
    exact ih g (fun c hc => h c (List.mem_cons_of_mem _ hc))

/-- Effect of one location curve (label position `j`, dimension `d`) on any
cell, when its bone resolves to column `j`. -/
theorem scatter_loc_apply {L : Type _} [DecidableEq L] (maxResidual : ℚ)
    (orient : Mat3) (interp : Interp) (frames : List Frame) (fcnt : ℤ)
    (fullL : List (FullLabel L)) (o : ArmObj L) (j : ℕ) (l : L) (d : ℕ)
    (hmem : armLabel o.name l ∈ fullL)
    (hidx : firstIdx (armLabel o.name l) fullL = j)
    (g : Grid) (r : ℤ) (j' : ℕ) :
    scatterCurve 0 fcnt fullL o g (mkLocCurve maxResidual 1 orient interp frames j l d) r j' =
      if j' = j ∧ 0 ≤ r ∧ r < fcnt ∧ r.toNat ∈ validIdx maxResidual frames j then
        setComp (setComp (g r j') d ((orient.mulVec (posAt frames r.toNat j)).comp d)) 3 0
      else g r j' := by
  have hfn : fullName o (mkLocCurve maxResidual 1 orient interp frames j l d) =
      armLabel o.name l := rfl
  unfold scatterCurve
  rw [if_pos (show (mkLocCurve maxResidual 1 orient interp frames j l d).kind =
    PathKind.location from rfl)]
  rw [hfn, if_pos hmem, hidx]
  show ((locKeyframes maxResidual 1 orient frames interp j d).foldl
      (writeKp 0 fcnt j d) g) r j' = _
  by_cases hj : j' = j
  · subst hj
    unfold locKeyframes
    rw [foldl_writeKp_nat fcnt j' d interp
      (fun k => (orient.mulVec (posAt frames k j')).comp d) r
      (validIdx maxResidual frames j') g
      ((List.nodup_range frames.length).filter _)]
    by_cases hc : 0 ≤ r ∧ r < fcnt ∧ r.toNat ∈ validIdx maxResidual frames j'
    · rw [if_pos hc, if_pos ⟨rfl, hc⟩]
    · rw [if_neg hc, if_neg (fun hh => hc hh.2)]
  · rw [foldl_writeKp_untouched _ _ _ _ _ _ _ _ (fun kp _ hh => hj hh.2)]
    rw [if_neg (fun hh => hj hh.1)]

/-- Collapsing the three per-dimension writes of one label into its cell. -/
theorem setComp_triple (p : P5) (a b c : ℚ) :
    setComp (setComp (setComp (setComp (setComp (setComp p 0 a) 3 0) 1 b) 3 0) 2 c) 3 0 =
      ⟨a, b, c, 0, p.cam⟩ := by
  cases p
  rfl

/-- Effect of one label's three location curves on any cell. -/
theorem foldl_scatter_triple {L : Type _} [DecidableEq L] (maxResidual : ℚ)
    (orient : Mat3) (interp : Interp) (frames : List Frame) (fcnt : ℤ)
    (fullL : List (FullLabel L)) (o : ArmObj L) (j : ℕ) (l : L)
    (hmem : armLabel o.name l ∈ fullL)
    (hidx : firstIdx (armLabel o.name l) fullL = j)
    (g : Grid) (r : ℤ) (j' : ℕ) :
    (((List.range 3).map (mkLocCurve maxResidual 1 orient interp frames j l)).foldl
      (scatterCurve 0 fcnt fullL o) g) r j' =
      if j' = j ∧ 0 ≤ r ∧ r < fcnt ∧ r.toNat ∈ validIdx maxResidual frames j then
        ⟨(orient.mulVec (posAt frames r.toNat j)).comp 0,
         (orient.mulVec (posAt frames r.toNat j)).comp 1,
         (orient.mulVec (posAt frames r.toNat j)).comp 2, 0, (g r j').cam⟩
      else g r j' := by
  have h3 : List.range 3 = [0, 1, 2] := rfl
  rw [h3]
  simp only [List.map_cons, List.map_nil, List.foldl_cons, List.foldl_nil]
  rw [scatter_loc_apply maxResidual orient interp frames fcnt fullL o j l 2 hmem hidx]
  rw [scatter_loc_apply maxResidual orient interp frames fcnt fullL o j l 1 hmem hidx]
  rw [scatter_loc_apply maxResidual orient interp frames fcnt fullL o j l 0 hmem hidx]
  by_cases hc : j' = j ∧ 0 ≤ r ∧ r < fcnt ∧ r.toNat ∈ validIdx maxResidual frames j
  · simp only [if_pos hc]
    exact setComp_triple (g r j') _ _ _
  · simp only [if_neg hc]

/-- Members of `enumFrom` are positions paired with the list entries. -/
theorem mem_enumFrom_char {α : Type _} (p : ℕ × α) :
    ∀ (l : List α) (i : ℕ), p ∈ l.enumFrom i →
      ∃ (k : ℕ) (hk : k < l.length), p.1 = i + k ∧ p.2 = l.get ⟨k, hk⟩ := by
  intro l
  induction l with
  | nil => intro i h; simp [List.enumFrom] at h
  | cons x xs ih =>
    intro i h
    rw [show (x :: xs).enumFrom i = (i, x) :: xs.enumFrom (i + 1) from rfl] at h
    rcases List.mem_cons.mp h with he | h
    · refine ⟨0, by simp, ?_, ?_⟩
      · rw [he]; omega
      · rw [he]; rfl
    · obtain ⟨k, hk, h1, h2⟩ := ih (i + 1) h
      refine ⟨k + 1, by simpa using Nat.succ_lt_succ hk, by omega, ?_⟩
      rw [List.get_cons_succ]
      exact h2

/-- Position of a mapped entry in the mapped list of a duplicate-free list. -/
theorem firstIdx_map_get {α β : Type _} [DecidableEq β] (φ : α → β)
    (hφ : Function.Injective φ) :
    ∀ (ls : List α), ls.Nodup → ∀ (k : ℕ) (hk : k < ls.length),
      firstIdx (φ (ls.get ⟨k, hk⟩)) (ls.map φ) = k := by
  intro ls
  induction ls with
  | nil => intro _ k hk; simp at hk
  | cons x xs ih =>
    intro hnd k hk
    cases k with
    | zero =>
      show firstIdx (φ x) (φ x :: xs.map φ) = 0
      simp [firstIdx]
    | succ k =>
      have hk' : k < xs.length := by simpa using hk
      have hne : ¬ φ x = φ ((x :: xs).get ⟨k + 1, hk⟩) := by
        intro he
        have hx : x = (x :: xs).get ⟨k + 1, hk⟩ := hφ he
        have hmem : (x :: xs).get ⟨k + 1, hk⟩ ∈ xs := by
          rw [List.get_cons_succ]
          exact xs.get_mem _ _
        rw [← hx] at hmem
        exact (List.nodup_cons.mp hnd).1 hmem
      show firstIdx (φ ((x :: xs).get ⟨k + 1, hk⟩)) (φ x :: xs.map φ) = k + 1
      unfold firstIdx
      rw [if_neg hne, List.get_cons_succ, ih (List.nodup_cons.mp hnd).2 k hk']

/-- The exporter's full bone names are injective in the bone for a fixed
armature. -/
theorem armLabel_inj {L : Type _} [DecidableEq L] (n : PyStr) :
    Function.Injective (armLabel (L := L) n) := by
  intro a b h
  unfold armLabel at h
  by_cases hn : n = unlabeledStr
  · rw [if_pos hn, if_pos hn] at h
    exact FullLabel.bare.inj h
  · rw [if_neg hn, if_neg hn] at h
    exact (FullLabel.withArm.inj h).2

/-- A `bind` over enumerated pairs that only uses the entries forgets the
positions. -/
theorem enumFrom_bind_snd {α β : Type _} (f : α → List β) :
    ∀ (l : List α) (i : ℕ), (l.enumFrom i).flatMap (fun p => f p.2) = l.flatMap f := by
  intro l
  induction l with
  | nil => intro i; rfl
  | cons x xs ih =>
    intro i
    rw [show (x :: xs).enumFrom i = (i, x) :: xs.enumFrom (i + 1) from rfl]
    rw [List.flatMap_cons, List.flatMap_cons, ih (i + 1)]

/-- A `map` over enumerated pairs that only uses the entries forgets the
positions. -/
theorem enumFrom_map_snd {α β : Type _} (f : α → β) :
    ∀ (l : List α) (i : ℕ), (l.enumFrom i).map (fun p => f p.2) = l.map f := by
  intro l
  induction l with
  | nil => intro i; rfl
  | cons x xs ih =>
    intro i
    rw [show (x :: xs).enumFrom i = (i, x) :: xs.enumFrom (i + 1) from rfl]
    rw [List.map_cons, List.map_cons, ih (i + 1)]

/-- First-occurrence deduplication of an append keeps the left part and the
new elements of the right part. -/
theorem dedupFirst_append {α : Type _} [DecidableEq α] :
    ∀ (l1 l2 : List α), dedupFirst (l1 ++ l2) =
      dedupFirst l1 ++ (dedupFirst l2).filter (fun a => decide (¬ a ∈ l1)) := by
  intro l1
  induction l1 with
  | nil =>
    intro l2
    simp only [List.nil_append, dedupFirst]
    rw [List.filter_eq_self.mpr (fun a _ => by simp)]
  | cons x l1 ih =>
    intro l2
    show dedupFirst (x :: (l1 ++ l2)) = _
    rw [show dedupFirst (x :: (l1 ++ l2)) =
      x :: (dedupFirst (l1 ++ l2)).filter (fun y => decide (¬ y = x)) from rfl]
    rw [ih l2, List.filter_append]
    rw [show dedupFirst (x :: l1) =
      x :: (dedupFirst l1).filter (fun y => decide (¬ y = x)) from rfl]
    rw [List.cons_append]
    congr 1
    rw [List.filter_filter]
    congr 1
    apply List.filter_congr
    intro a _
    by_cases h1 : a ∈ l1 <;> by_cases h2 : a = x <;>
      simp [h1, h2, List.mem_cons]

/-- A duplicated head is collapsed by first-occurrence deduplication. -/
theorem dedupFirst_cons_cons {α : Type _} [DecidableEq α] (x : α) (l : List α) :
    dedupFirst (x :: x :: l) = dedupFirst (x :: l) := by
  show x :: (dedupFirst (x :: l)).filter (fun y => decide (¬ y = x)) = _
  rw [show dedupFirst (x :: l) =
    x :: (dedupFirst l).filter (fun y => decide (¬ y = x)) from rfl]
  rw [List.filter_cons_of_neg (by simp)]
  rw [List.filter_filter]
  congr 1
  apply List.filter_congr
  intro a _
  by_cases h : a = x <;> simp [h]

/-- Deduplicating the exporter's label stream — three location-curve names
followed by one residual-curve name per label — returns each label's full
name once, in label order. -/
theorem dedupFirst_pattern {α β : Type _} [DecidableEq β] (φ : α → β)
    (hφ : Function.Injective φ) :
    ∀ (ls : List α), ls.Nodup →
      dedupFirst ((ls.flatMap (fun l => [φ l, φ l, φ l])) ++ ls.map φ) = ls.map φ := by
  intro ls
  induction ls with
  | nil => intro _; rfl
  | cons x rest ih =>
    intro hnd
    obtain ⟨hx, hnd2⟩ := List.nodup_cons.mp hnd
    have hneq : ∀ l2 ∈ rest, ¬ φ l2 = φ x := by
      intro l2 hl2 he
      exact hx (hφ he ▸ hl2)
    have hBmem : ∀ a ∈ rest.flatMap (fun l => [φ l, φ l, φ l]), ¬ a = φ x := by
      intro a ha
      rcases List.mem_flatMap.mp ha with ⟨l2, hl2, hm⟩
      rcases List.mem_cons.mp hm with rfl | hm
      · exact hneq l2 hl2
      rcases List.mem_cons.mp hm with rfl | hm
      · exact hneq l2 hl2
      rcases List.mem_cons.mp hm with rfl | hm
      · exact hneq l2 hl2
      · exact absurd hm (List.not_mem_nil a)
    have hMmem : ∀ a ∈ dedupFirst (rest.map φ), ¬ a = φ x := by
      intro a ha
      rcases List.mem_map.mp ((mem_dedupFirst a _).mp ha) with ⟨l2, hl2, rfl⟩
      exact hneq l2 hl2
    have hshape : ((x :: rest).flatMap (fun l => [φ l, φ l, φ l])) ++ (x :: rest).map φ =
        φ x :: φ x :: φ x ::
          ((rest.flatMap (fun l => [φ l, φ l, φ l])) ++ (φ x :: rest.map φ)) := by
      rw [List.flatMap_cons, List.map_cons]
      rfl
    rw [hshape, dedupFirst_cons_cons, dedupFirst_cons_cons]
    rw [show dedupFirst (φ x ::
        ((rest.flatMap (fun l => [φ l, φ l, φ l])) ++ (φ x :: rest.map φ))) =
      φ x :: (dedupFirst ((rest.flatMap (fun l => [φ l, φ l, φ l])) ++
        (φ x :: rest.map φ))).filter (fun y => decide (¬ y = φ x)) from rfl]
    rw [dedupFirst_append]
    rw [show dedupFirst (φ x :: rest.map φ) =
      φ x :: (dedupFirst (rest.map φ)).filter (fun y => decide (¬ y = φ x)) from rfl]
    rw [List.filter_append]
    rw [List.filter_cons]
    have hnotB : ¬ (φ x ∈ rest.flatMap fun l => [φ l, φ l, φ l]) :=
      fun hh => hBmem (φ x) hh rfl
    rw [if_pos (by simpa using hnotB)]
    rw [List.filter_cons_of_neg (by simp)]
    rw [List.filter_filter]
    rw [List.map_cons]
    congr 1
    have hleft : (dedupFirst (rest.flatMap (fun l => [φ l, φ l, φ l]))).filter
        (fun y => decide (¬ y = φ x)) =
        dedupFirst (rest.flatMap (fun l => [φ l, φ l, φ l])) := by
      apply List.filter_eq_self.mpr
      intro a ha
      simpa using hBmem a ((mem_dedupFirst a _).mp ha)
    rw [hleft]
    have hright : ∀ pright : β → Bool,
        (∀ a ∈ dedupFirst (rest.map φ), pright a =
          decide (¬ a ∈ rest.flatMap (fun l => [φ l, φ l, φ l]))) →
        (dedupFirst (rest.map φ)).filter pright =
          (dedupFirst (rest.map φ)).filter
            (fun a => decide (¬ a ∈ rest.flatMap (fun l => [φ l, φ l, φ l]))) :=
      fun pright hp => List.filter_congr hp
    have hMfilter : List.filter (fun y => decide (¬ y = φ x)) (dedupFirst (rest.map φ)) =
        dedupFirst (rest.map φ) :=
      List.filter_eq_self.mpr (fun a ha => by simpa using hMmem a ha)
    rw [hMfilter]
    rw [hright _ (fun a ha => by
      have hd : decide (¬ a = φ x) = true := by simpa using hMmem a ha
      rw [hd, Bool.true_and])]
    rw [← dedupFirst_append]
    exact ih hnd2

/-- Effect of the whole per-label location-curve block on any cell: column
`j'` receives label `j'`'s data exactly at its valid in-range frame offsets. -/
theorem foldl_scatter_bindBlock {L : Type _} [DecidableEq L] (maxResidual : ℚ)
    (orient : Mat3) (interp : Interp) (frames : List Frame) (fcnt : ℤ)
    (fullL : List (FullLabel L)) (o : ArmObj L) :
    ∀ (ls : List L) (i : ℕ) (g : Grid) (r : ℤ) (j' : ℕ),
      (∀ p ∈ ls.enumFrom i, armLabel o.name p.2 ∈ fullL ∧
        firstIdx (armLabel o.name p.2) fullL = p.1) →
      (((ls.enumFrom i).flatMap (fun p =>
          (List.range 3).map (mkLocCurve maxResidual 1 orient interp frames p.1 p.2))).foldl
        (scatterCurve 0 fcnt fullL o) g) r j' =
      if i ≤ j' ∧ j' < i + ls.length ∧ 0 ≤ r ∧ r < fcnt ∧
          r.toNat ∈ validIdx maxResidual frames j' then
        ⟨(orient.mulVec (posAt frames r.toNat j')).comp 0,
         (orient.mulVec (posAt frames r.toNat j')).comp 1,
         (orient.mulVec (posAt frames r.toNat j')).comp 2, 0, (g r j').cam⟩
      else g r j' := by
  intro ls
  induction ls with
  | nil =>
    intro i g r j' _
    rw [if_neg (by rintro ⟨h1, h2, -⟩; simp at h2; omega)]
    rfl
  | cons l rest ih =>
    intro i g r j' hI
    have hhead := hI (i, l) (by
      rw [show (l :: rest).enumFrom i = (i, l) :: rest.enumFrom (i + 1) from rfl]
      exact List.mem_cons_self _ _)
    have htail : ∀ p ∈ rest.enumFrom (i + 1), armLabel o.name p.2 ∈ fullL ∧
        firstIdx (armLabel o.name p.2) fullL = p.1 := by
      intro p hp
      exact hI p (by
        rw [show (l :: rest).enumFrom i = (i, l) :: rest.enumFrom (i + 1) from rfl]
        exact List.mem_cons_of_mem _ hp)
    rw [show (l :: rest).enumFrom i = (i, l) :: rest.enumFrom (i + 1) from rfl]
    rw [List.flatMap_cons, List.foldl_append]
    rw [ih (i + 1) _ r j' htail]
    by_cases hji : j' = i
    · subst hji
      rw [if_neg (by rintro ⟨h1, -⟩; omega)]
      rw [foldl_scatter_triple maxResidual orient interp frames fcnt fullL o j' l
        hhead.1 hhead.2 g r j']
      by_cases hc : 0 ≤ r ∧ r < fcnt ∧ r.toNat ∈ validIdx maxResidual frames j'
      · rw [if_pos ⟨rfl, hc⟩, if_pos ⟨le_rfl, by simp, hc⟩]
      · rw [if_neg (fun hh => hc hh.2), if_neg (fun hh => hc hh.2.2)]
    · have hg1 : ∀ j2 r2, ¬ j2 = i →
          (((List.range 3).map (mkLocCurve maxResidual 1 orient interp frames i l)).foldl
            (scatterCurve 0 fcnt fullL o) g) r2 j2 = g r2 j2 := by
        intro j2 r2 hne
        rw [foldl_scatter_triple maxResidual orient interp frames fcnt fullL o i l
          hhead.1 hhead.2 g r2 j2]
        rw [if_neg (fun hh => hne hh.1)]
      by_cases hc : i + 1 ≤ j' ∧ j' < i + 1 + rest.length ∧ 0 ≤ r ∧ r < fcnt ∧
          r.toNat ∈ validIdx maxResidual frames j'
      · rw [if_pos hc, hg1 j' r hji,
          if_pos ⟨by omega, by simp; omega, hc.2.2⟩]
      · rw [if_neg hc, hg1 j' r hji]
        rw [if_neg (by
          rintro ⟨h1, h2, h3⟩
          simp at h2
          exact hc ⟨by omega, by omega, h3⟩)]

/-- The identity matrix fixes every vector. -/
theorem idMat_mulVec (v : Vec3) : idMat.mulVec v = v := by
  cases v
  simp [Mat3.mulVec, Vec3.dot, idMat]

/-- The identity orientation fixes every output cell. -/
theorem orientCell_id (p : P5) : orientCell idMat p = p := by
  cases p
  simp [orientCell, idMat_mulVec]

/-- Membership in the valid frame-offset list. -/
theorem mem_validIdx (maxResidual : ℚ) (frames : List Frame) (j k : ℕ) :
    k ∈ validIdx maxResidual frames j ↔
      (k < frames.length ∧ validAt maxResidual frames k j = true) := by
  unfold validIdx
  rw [List.mem_filter, List.mem_range]

/-- The full bone names of the importer's curve list: three copies per label
from the location curves, then one per label from the residual curves. -/
theorem map_fullName_import {L : Type _} [DecidableEq L] (maxResidual conv : ℚ)
    (orient : Mat3) (interp : Interp) (firstFrame : ℤ) (frames : List Frame)
    (labels : List L) (armName : PyStr) (curves0 : List (FCurveM L)) :
    (importFCurves maxResidual conv orient interp firstFrame frames labels).map
        (fullName (⟨armName, curves0⟩ : ArmObj L)) =
      (labels.flatMap (fun l => [armLabel armName l, armLabel armName l,
        armLabel armName l])) ++ labels.map (armLabel armName) := by
  unfold importFCurves
  rw [List.map_append, List.map_flatMap]
  congr 1
  · rw [show (labels.enum : List (ℕ × L)) = labels.enumFrom 0 from rfl]
    rw [← enumFrom_bind_snd (fun l => [armLabel armName l, armLabel armName l,
      armLabel armName l]) labels 0]
    apply List.flatMap_congr
    intro jl _
    rfl
  · rw [List.map_map, show (labels.enum : List (ℕ × L)) = labels.enumFrom 0 from rfl]
    rw [← enumFrom_map_snd (armLabel armName) labels 0]
    apply List.map_congr_left
    intro jl _
    rfl

/-- The exporter's collected label list for one armature holding the
importer's curves is the import label list tagged with the armature name, in
order. -/
theorem collectLabels_import {L : Type _} [DecidableEq L] (maxResidual conv : ℚ)
    (orient : Mat3) (interp : Interp) (firstFrame : ℤ) (frames : List Frame)
    (labels : List L) (armName : PyStr) (hnd : labels.Nodup) :
    collectLabels [⟨armName, importFCurves maxResidual conv orient interp
        firstFrame frames labels⟩] = labels.map (armLabel armName) := by
  unfold collectLabels
  rw [List.flatMap_cons]
  rw [show (([] : List (ArmObj L)).flatMap (fun o => o.curves.map (fullName o))) = []
    from rfl]
  rw [List.append_nil]
  rw [show ((⟨armName, importFCurves maxResidual conv orient interp firstFrame
      frames labels⟩ : ArmObj L)).curves =
    importFCurves maxResidual conv orient interp firstFrame frames labels from rfl]
  rw [map_fullName_import]
  exact dedupFirst_pattern (armLabel armName) (armLabel_inj armName) labels hnd

/-- C2 (amended): importing a recording with first frame index 0 whose
terminal frame is not all-near-zero, then exporting the resulting channels
(identity orientation/scale, unique labels, no masking, one armature, empty
labels retained, no resampling) reproduces every frame except the terminal
one exactly: the export has `frame_count = nframes - 1` rows, valid samples
keep their positions with residual 0, invalid samples keep `residual = -1`;
the terminal frame is truncated away because the import sets the scene end to
`last_frame - 1` and the export only covers the scene range. -/
theorem roundtrip_amended {L : Type _} [DecidableEq L] (maxResidual : ℚ)
    (interp : Interp) (armName : PyStr) (labels : List L) (frames : List Frame)
    (hnd : labels.Nodup) (hlne : ¬ labels = []) (hne : ¬ frames = [])
    (hlen : ∀ f ∈ frames, f.length = labels.length)
    (hz : lastFrameNearZero (frames.getLastD []) = false) :
    ∃ out, roundTrip maxResidual interp armName labels 0 frames = some out ∧
      out.frameCount = (frames.length : ℤ) - 1 ∧
      ∀ k, k < frames.length - 1 → ∀ j, j < labels.length →
        ((validAt maxResidual frames k j = true →
          out.grid k j = ⟨(posAt frames k j).x, (posAt frames k j).y,
            (posAt frames k j).z, 0, 0⟩) ∧
        (validAt maxResidual frames k j = false → out.grid k j = P5.init)) := by
  have hflen : 1 ≤ frames.length := by
    cases frames with
    | nil => exact absurd rfl hne
    | cons f fs => simp
  have hprep1 : (loadPrep true 0 frames ⟨0, 0⟩).1 = ⟨0, lastFrameOf 0 frames - 1⟩ := by
    unfold loadPrep
    rw [if_neg (fun hand => by rw [hz] at hand; exact absurd hand.2 (by simp))]
    rfl
  have hprep2 : (loadPrep true 0 frames ⟨0, 0⟩).2 = frames := by
    unfold loadPrep
    rw [if_neg (fun hand => by rw [hz] at hand; exact absurd hand.2 (by simp))]
  have hcol := collectLabels_import maxResidual 1 idMat interp 0 frames labels armName hnd
  have hemp : ((collectLabels [⟨armName, importFCurves maxResidual 1 idMat interp 0
      frames labels⟩] : List (FullLabel L))).isEmpty = false := by
    rw [hcol]
    cases labels with
    | nil => exact absurd rfl hlne
    | cons a as => rw [List.map_cons]; rfl
  have hrt : roundTrip maxResidual interp armName labels 0 frames =
      some ⟨collectLabels [⟨armName, importFCurves maxResidual 1 idMat interp 0
          frames labels⟩],
        (lastFrameOf 0 frames - 1) + 1 - 0,
        fun r j => orientCell idMat (exportGrid 0 ((lastFrameOf 0 frames - 1) + 1 - 0)
          (collectLabels [⟨armName, importFCurves maxResidual 1 idMat interp 0
            frames labels⟩])
          [⟨armName, importFCurves maxResidual 1 idMat interp 0 frames labels⟩] r j)⟩ := by
    unfold roundTrip
    rw [hprep1, hprep2]
    unfold exportC3D
    rw [hemp]
    rfl
  have hlf : lastFrameOf 0 frames = (frames.length : ℤ) - 1 := by
    unfold lastFrameOf
    ring
  have hIenum : ∀ p ∈ labels.enumFrom 0,
      armLabel armName p.2 ∈ labels.map (armLabel armName) ∧
      firstIdx (armLabel armName p.2) (labels.map (armLabel armName)) = p.1 := by
    intro p hp
    obtain ⟨k2, hk2, h1, h2⟩ := mem_enumFrom_char p labels 0 hp
    constructor
    · rw [h2]
      exact List.mem_map_of_mem _ (labels.get_mem _ _)
    · rw [h2, firstIdx_map_get (armLabel armName) (armLabel_inj armName) labels hnd k2 hk2]
      omega
  have hgrid : ∀ (r : ℤ) (j' : ℕ),
      exportGrid 0 ((lastFrameOf 0 frames - 1) + 1 - 0)
        (collectLabels [⟨armName, importFCurves maxResidual 1 idMat interp 0
          frames labels⟩])
        [⟨armName, importFCurves maxResidual 1 idMat interp 0 frames labels⟩] r j' =
      if 0 ≤ j' ∧ j' < 0 + labels.length ∧ 0 ≤ r ∧
          r < (lastFrameOf 0 frames - 1) + 1 - 0 ∧
          r.toNat ∈ validIdx maxResidual frames j' then
        ⟨(idMat.mulVec (posAt frames r.toNat j')).comp 0,
         (idMat.mulVec (posAt frames r.toNat j')).comp 1,
         (idMat.mulVec (posAt frames r.toNat j')).comp 2, 0, 0⟩
      else P5.init := by
    intro r j'
    rw [hcol]
    unfold exportGrid
    rw [List.foldl_cons, List.foldl_nil]
    rw [show ((⟨armName, importFCurves maxResidual 1 idMat interp 0 frames
        labels⟩ : ArmObj L)).curves =
      importFCurves maxResidual 1 idMat interp 0 frames labels from rfl]
    unfold importFCurves
    rw [List.foldl_append]
    rw [foldl_scatter_nonloc 0 ((lastFrameOf 0 frames - 1) + 1 - 0)
      (labels.map (armLabel armName)) _ _ _
      (by
        intro c hc
        rcases List.mem_map.mp hc with ⟨jl, -, rfl⟩
        simp)]
    rw [show (labels.enum : List (ℕ × L)) = labels.enumFrom 0 from rfl]
    rw [foldl_scatter_bindBlock maxResidual idMat interp frames
      ((lastFrameOf 0 frames - 1) + 1 - 0) (labels.map (armLabel armName)) _
      labels 0 _ r j' hIenum]
    rfl
  refine ⟨_, hrt, ?_, ?_⟩
  · show (lastFrameOf 0 frames - 1) + 1 - 0 = (frames.length : ℤ) - 1
    rw [hlf]
    ring
  · intro k hk j hj
    have hcast : ((k : ℤ)).toNat = k := Int.toNat_natCast k
    have hklt : (k : ℤ) < (lastFrameOf 0 frames - 1) + 1 - 0 := by
      rw [hlf]
      omega
    constructor
    · intro hval
      show orientCell idMat (exportGrid 0 ((lastFrameOf 0 frames - 1) + 1 - 0)
        (collectLabels [⟨armName, importFCurves maxResidual 1 idMat interp 0
          frames labels⟩])
        [⟨armName, importFCurves maxResidual 1 idMat interp 0 frames labels⟩]
        (k : ℤ) j) = _
      rw [hgrid]
      rw [if_pos ⟨Nat.zero_le j, by omega, Int.natCast_nonneg k, hklt, by
        rw [hcast]
        exact (mem_validIdx maxResidual frames j k).mpr ⟨by omega, hval⟩⟩]
      rw [orientCell_id, hcast, idMat_mulVec]
      rfl
    · intro hval
      show orientCell idMat (exportGrid 0 ((lastFrameOf 0 frames - 1) + 1 - 0)
        (collectLabels [⟨armName, importFCurves maxResidual 1 idMat interp 0
          frames labels⟩])
        [⟨armName, importFCurves maxResidual 1 idMat interp 0 frames labels⟩]
        (k : ℤ) j) = _
      rw [hgrid]
      rw [if_neg (by
        rintro ⟨-, -, -, -, hmem⟩
        rw [hcast] at hmem
        have := ((mem_validIdx maxResidual frames j k).mp hmem).2
        rw [hval] at this
        cases this)]
      rw [orientCell_id]

/-- C2 (counterexample): a 2-frame, 1-label recording with all samples valid
and first frame index 0 does not survive the round trip — the export covers
only one row (`frame_count = 1`), so the recording's final frame is not
reproduced at all. -/
theorem roundtrip_claim_fails :
    ¬ roundTripClaim 0 Interp.BEZIER ['f'] ([0] : List ℕ) 0 cframes2 := by
  rintro ⟨out, hout, hk⟩
  have h1 := (hk 1 (by decide)).1
  have hfc : (roundTrip 0 Interp.BEZIER ['f'] ([0] : List ℕ) 0 cframes2).map
      (fun o => o.frameCount) = some 1 := by decide
  rw [hout] at hfc
  have h2 : out.frameCount = 1 := Option.some.inj hfc
  rw [h2] at h1
  omega

/-- C2 witness: the amended round-trip statement instantiated at the
2-frame, 1-label recording. -/
theorem roundtrip_amended_witness :
    (([0] : List ℕ).Nodup ∧ ¬ ([0] : List ℕ) = [] ∧ ¬ cframes2 = [] ∧
      (∀ f ∈ cframes2, f.length = ([0] : List ℕ).length) ∧
      lastFrameNearZero (cframes2.getLastD []) = false) ∧
    (∃ out, roundTrip 0 Interp.BEZIER ['f'] ([0] : List ℕ) 0 cframes2 = some out ∧
      out.frameCount = (cframes2.length : ℤ) - 1 ∧
      ∀ k, k < cframes2.length - 1 → ∀ j, j < ([0] : List ℕ).length →
        ((validAt 0 cframes2 k j = true →
          out.grid k j = ⟨(posAt cframes2 k j).x, (posAt cframes2 k j).y,
            (posAt cframes2 k j).z, 0, 0⟩) ∧
        (validAt 0 cframes2 k j = false → out.grid k j = P5.init))) :=
  ⟨⟨by decide, by decide, by decide, by decide, by decide⟩,
    roundtrip_amended 0 Interp.BEZIER ['f'] ([0] : List ℕ) cframes2
      (by decide) (by decide) (by decide) (by decide) (by decide)⟩

/-- C4 witness: frame offset 0 of the 2-frame recording is valid and appears
among the position keyframe times at resample factor 1. -/
theorem keyframe_times_witness :
    ((0 : ℚ)) ∈ (locKeyframes 0 1 idMat cframes2 Interp.BEZIER 0 0).map KP.time :=
  ((keyframe_times_amended 0 1 idMat Interp.BEZIER 0 cframes2 0 0).2.1 0).mpr
    ⟨by decide, by decide⟩
